import Mathlib

/-!
Verification of the swerve-drivetrain control logic of the 2024Waffle robot
code (src/subsystems/swerve.py, src/subsystems/drivetrain.py, src/robot.py).

All machine floating-point arithmetic is embedded as exact rational
arithmetic (ℚ).  Angles are in degrees throughout, matching the source,
which converts raw Falcon sensor ticks to degrees with the factor 360/2048
and a gear ratio.  Hardware side effects (motor `set` calls) are embedded as
returned command records.
-/

set_option maxHeartbeats 1000000

namespace Waffle

/-- Wraps an angle in degrees into the interval (-180, 180].  This is the
exact value computed by wpimath `Rotation2d` arithmetic, whose
`minus`/`rotateBy` recompute the angle with `atan2`, landing in (-180, 180]. -/
def wrapCont (x : ℚ) : ℚ := x - 360 * ⌈(x - 180) / 360⌉

/-- Python's float `%` for a positive modulus: result lies in [0, b). -/
def qmod (a b : ℚ) : ℚ := a - b * ⌊a / b⌋

/-- The `while targetAngleDist > 180: targetAngleDist -= 360` loop of
`SwerveModule.changeDirection` (swerve.py lines 117-118). -/
def wrapLoop (d : ℚ) : ℚ :=
  if h : 180 < d then wrapLoop (d - 360) else d
termination_by (⌈d / 360⌉).toNat
decreasing_by
  have h1 : ⌈(d - 360) / 360⌉ = ⌈d / 360⌉ - 1 := by
    have hdiv : (d - 360) / 360 = d / 360 + ((-1 : ℤ) : ℚ) := by push_cast; ring
    rw [hdiv, Int.ceil_add_int]
    omega
  have h2 : 0 < ⌈d / 360⌉ :=
    Int.ceil_pos.mpr (div_pos (by linarith) (by norm_num))
  omega

theorem wrapCont_le (x : ℚ) : wrapCont x ≤ 180 := by
  have h := Int.le_ceil ((x - 180) / 360)
  have h360 : x - 180 ≤ 360 * (⌈(x - 180) / 360⌉ : ℚ) := by
    have hm := mul_le_mul_of_nonneg_left h (by norm_num : (0:ℚ) ≤ 360)
    have he : (360:ℚ) * ((x - 180) / 360) = x - 180 := by field_simp
    rw [he] at hm
    exact hm
  unfold wrapCont
  linarith

theorem neg_lt_wrapCont (x : ℚ) : -180 < wrapCont x := by
  have h := Int.ceil_lt_add_one ((x - 180) / 360)
  have h360 : 360 * (⌈(x - 180) / 360⌉ : ℚ) < x - 180 + 360 := by
    have hm := mul_lt_mul_of_pos_left h (by norm_num : (0:ℚ) < 360)
    have he : (360:ℚ) * ((x - 180) / 360 + 1) = x - 180 + 360 := by field_simp
    rw [he] at hm
    exact hm
  unfold wrapCont
  linarith

theorem wrapCont_add_int_mul (x : ℚ) (k : ℤ) : wrapCont (x + 360 * k) = wrapCont x := by
  unfold wrapCont
  have hdiv : (x + 360 * (k:ℚ) - 180) / 360 = (x - 180) / 360 + (k : ℚ) := by
    field_simp
    ring
  rw [hdiv, Int.ceil_add_int]
  push_cast
  ring

theorem wrapCont_eq_self {x : ℚ} (h1 : -180 < x) (h2 : x ≤ 180) : wrapCont x = x := by
  have hc : ⌈(x - 180) / 360⌉ = 0 := by
    rw [Int.ceil_eq_zero_iff, Set.mem_Ioc]
    constructor
    · rw [lt_div_iff₀ (by norm_num : (0:ℚ) < 360)]
      linarith
    · rw [div_nonpos_iff]
      right
      constructor <;> linarith
  unfold wrapCont
  rw [hc]
  push_cast
  ring

theorem sub_wrapCont_exists (x : ℚ) : ∃ k : ℤ, x - wrapCont x = 360 * k := by
  refine ⟨⌈(x - 180) / 360⌉, ?_⟩
  unfold wrapCont
  ring

theorem wrapCont_sub_360 (x : ℚ) : wrapCont (x - 360) = wrapCont x := by
  have h := wrapCont_add_int_mul x (-1)
  push_cast at h
  rw [show x + 360 * (-1 : ℚ) = x - 360 by ring] at h
  exact h

theorem wrapCont_eq_of {x w : ℚ} (h1 : -180 < w) (h2 : w ≤ 180) (k : ℤ)
    (hk : x = w + 360 * k) : wrapCont x = w := by
  rw [hk, wrapCont_add_int_mul, wrapCont_eq_self h1 h2]

theorem wrapCont_wrapCont_add (a b : ℚ) : wrapCont (wrapCont a + b) = wrapCont (a + b) := by
  obtain ⟨k, hk⟩ := sub_wrapCont_exists a
  have h : wrapCont a + b = a + b + 360 * ((-k : ℤ) : ℚ) := by push_cast; linarith
  rw [h, wrapCont_add_int_mul]

theorem abs_wrapCont_neg (x : ℚ) : |wrapCont (-x)| = |wrapCont x| := by
  obtain ⟨k, hk⟩ := sub_wrapCont_exists x
  have h1 := neg_lt_wrapCont x
  have h2 := wrapCont_le x
  by_cases hcase : wrapCont x = 180
  · have hx : wrapCont (-x) = 180 := by
      apply wrapCont_eq_of (by norm_num) (le_refl (180:ℚ)) (-k - 1)
      push_cast
      rw [hcase] at hk
      linarith
    rw [hx, hcase]
  · have hlt : wrapCont x < 180 := lt_of_le_of_ne h2 hcase
    have hx : wrapCont (-x) = -(wrapCont x) := by
      apply wrapCont_eq_of (by linarith) (by linarith) (-k)
      push_cast
      linarith
    rw [hx, abs_neg]

theorem abs_wrapCont_abs (x : ℚ) : |wrapCont (|x|)| = |wrapCont x| := by
  rcases abs_choice x with h | h
  · rw [h]
  · rw [h, abs_wrapCont_neg]

theorem abs_wrapCont_add_180 {w : ℚ} (h1 : -180 < w) (h2 : w ≤ 180) :
    |wrapCont (w + 180)| = 180 - |w| := by
  by_cases hw : w ≤ 0
  · have h : wrapCont (w + 180) = w + 180 :=
      wrapCont_eq_self (by linarith) (by linarith)
    rw [h, abs_of_nonneg (by linarith), abs_of_nonpos hw]
    ring
  · have h : wrapCont (w + 180) = w - 180 :=
      wrapCont_eq_of (by linarith) (by linarith) 1 (by push_cast; ring)
    rw [h, abs_of_nonpos (by linarith), abs_of_pos (by linarith)]
    ring

theorem wrapLoop_eq_wrapCont (d : ℚ) (hd : -180 < d) : wrapLoop d = wrapCont d := by
  rw [wrapLoop]
  split
  · next h =>
    rw [wrapLoop_eq_wrapCont (d - 360) (by linarith), wrapCont_sub_360]
  · next h =>
    exact (wrapCont_eq_self hd (by linarith)).symm
termination_by (⌈d / 360⌉).toNat
decreasing_by
  have h1 : ⌈(d - 360) / 360⌉ = ⌈d / 360⌉ - 1 := by
    have hdiv : (d - 360) / 360 = d / 360 + ((-1 : ℤ) : ℚ) := by push_cast; ring
    rw [hdiv, Int.ceil_add_int]
    omega
  have h2 : 0 < ⌈d / 360⌉ :=
    Int.ceil_pos.mpr (div_pos (by linarith) (by norm_num))
  omega

theorem qmod_of_congr_180 (k : ℤ) : qmod (180 + 360 * (k:ℚ)) 360 = 180 := by
  unfold qmod
  have hdiv : (180 + 360 * (k:ℚ)) / 360 = 1/2 + (k:ℚ) := by
    field_simp
    ring
  rw [hdiv]
  have hfl : ⌊(1:ℚ)/2 + (k:ℚ)⌋ = k := by
    rw [Int.floor_add_int]
    norm_num
  rw [hfl]
  ring

theorem abs_wrapCont_of_abs_le {x : ℚ} (h : |x| ≤ 180) : |wrapCont x| = |x| := by
  rcases abs_le.mp h with ⟨hl, hr⟩
  by_cases hx : -180 < x
  · rw [wrapCont_eq_self hx hr]
  · have hx180 : x = -180 := le_antisymm (not_lt.mp hx) hl
    have hval : wrapCont (-180 : ℚ) = 180 := by
      unfold wrapCont
      have hq : ((-180:ℚ) - 180) / 360 = ((-1 : ℤ) : ℚ) := by norm_num
      rw [hq, Int.ceil_intCast]
      norm_num
    rw [hx180, hval]
    norm_num

theorem abs_wrapCont_le_abs (x : ℚ) : |wrapCont x| ≤ |x| := by
  by_cases h : |x| ≤ 180
  · rw [abs_wrapCont_of_abs_le h]
  · have h1 := wrapCont_le x
    have h2 := neg_lt_wrapCont x
    calc |wrapCont x| ≤ 180 := abs_le.mpr ⟨by linarith, h1⟩
      _ ≤ |x| := le_of_not_le h

/-! The per-module steering logic (class SwerveModule, swerve.py).

The direction-motor closed loop is embedded by its commanded raw sensor
position.  `g` stands for the constant `Motor.kGearRatio` (defined in the
repository's constants.py, which is not under src/); it is kept as a
parameter.  Raw sensor ticks convert to degrees with 360/2048, as in the
source. -/

/-- Degrees per raw sensor tick, the literal `(360/2048)` of swerve.py. -/
def degPerTick : ℚ := 360 / 2048

/-- Embeds `SwerveModule.getAngle` (swerve.py line 68-69):
`directionMotor.getSelectedSensorPosition() / Motor.kGearRatio * (360/2048)`. -/
def getAngleDeg (g pos : ℚ) : ℚ := pos / g * degPerTick

/-- The distance computation of `changeDirection` (swerve.py lines 113-119):
absolute difference, reduced by the 360-subtracting loop when above 180,
then taken absolute. -/
def targetAngleDist (angleDiff : ℚ) : ℚ :=
  if 180 < |angleDiff| then |wrapLoop (|angleDiff|)| else |angleDiff|

/-- The conditional normalization of `changeDirection` (swerve.py lines
123-124): `if angleDiff < 0 or angleDiff >= 360: angleDiff %= 360`. -/
def normalizedDiff (angleDiff : ℚ) : ℚ :=
  if angleDiff < 0 ∨ 360 ≤ angleDiff then qmod angleDiff 360 else angleDiff

/-- Embeds `SwerveModule.changeDirection` (swerve.py lines 111-135).
Returns the raw sensor position commanded to the direction motor, i.e. the
argument `finalPos * Motor.kGearRatio` of the MotionMagic `set` call. -/
def changeDirection (g pos t : ℚ) : ℚ :=
  (if 180 < normalizedDiff (t - getAngleDeg g pos)
   then pos / g - targetAngleDist (t - getAngleDeg g pos) / degPerTick
   else pos / g + targetAngleDist (t - getAngleDeg g pos) / degPerTick) * g

/-- A desired module state: signed speed (m/s) and target angle in degrees
(the raw value stored in a `Rotation2d`, possibly outside [-180, 180)). -/
structure ModuleStateDeg where
  speed : ℚ
  angleDeg : ℚ
deriving DecidableEq

/-- Modelled from the spec: `SwerveModuleState.optimize` (wpimath library,
not under src/).  Per spec section 4.1 the target angle may be replaced by
its antipodal angle (rotated by 180 degrees) paired with negated speed; the
wpimath implementation flips exactly when the wrapped angle delta to the
current angle exceeds 90 degrees, and `Rotation2d` arithmetic wraps results
into (-180, 180]. -/
def optimizeState (d : ModuleStateDeg) (currentDeg : ℚ) : ModuleStateDeg :=
  if 90 < |wrapCont (d.angleDeg - currentDeg)| then
    ⟨-d.speed, wrapCont (d.angleDeg + 180)⟩
  else d

/-- The actuator commands issued by one `setDesiredState` call: the drive
motor percent output, the arbitrary feed-forward argument, and the raw
steering sensor position commanded through `changeDirection`. -/
structure ModuleCmd where
  percentOut : ℚ
  arbFFOut : ℚ
  steerPos : ℚ
deriving DecidableEq

/-- Embeds `SwerveModule.setDesiredState` (swerve.py lines 97-109).
`maxSpd` stands for `Larry.kMaxSpeed` and `arb` for `DriveMotor.karbFF`
(constants.py, not under src/), kept as parameters. -/
def setDesiredState (g maxSpd arb pos : ℚ) (d : ModuleStateDeg) (opt : Bool) : ModuleCmd :=
  { percentOut := (if opt then optimizeState d (getAngleDeg g pos) else d).speed / maxSpd
    arbFFOut :=
      if (if opt then optimizeState d (getAngleDeg g pos) else d).speed < 0 then -arb else arb
    steerPos := changeDirection g pos (if opt then optimizeState d (getAngleDeg g pos) else d).angleDeg }

/-- Shortest angular distance, in degrees, between two (possibly
unwrapped) angles. -/
def angDist (a b : ℚ) : ℚ := |wrapCont (a - b)|

theorem targetAngleDist_eq (x : ℚ) : targetAngleDist x = |wrapCont x| := by
  unfold targetAngleDist
  by_cases h : 180 < |x|
  · rw [if_pos h, wrapLoop_eq_wrapCont _ (by linarith [abs_nonneg x]), abs_wrapCont_abs]
  · rw [if_neg h, abs_wrapCont_of_abs_le (not_lt.mp h)]

theorem targetAngleDist_nonneg (x : ℚ) : 0 ≤ targetAngleDist x := by
  rw [targetAngleDist_eq]
  exact abs_nonneg _

theorem degPerTick_ne_zero : degPerTick ≠ 0 := by norm_num [degPerTick]

/-- The steering angle actually commanded by `changeDirection` differs
from the current module angle by exactly the shortest angular distance to
the target, in magnitude. -/
theorem abs_changeDirection_delta (g pos t : ℚ) (hg : g ≠ 0) :
    |getAngleDeg g (changeDirection g pos t) - getAngleDeg g pos| =
      angDist t (getAngleDeg g pos) := by
  unfold changeDirection angDist
  have hgv : getAngleDeg g pos = pos / g * degPerTick := rfl
  by_cases hbr : 180 < normalizedDiff (t - getAngleDeg g pos)
  · rw [if_pos hbr]
    unfold getAngleDeg
    rw [mul_div_assoc, div_self hg, mul_one, sub_mul,
        div_mul_cancel₀ _ degPerTick_ne_zero]
    rw [show pos / g * degPerTick - targetAngleDist (t - pos / g * degPerTick) -
          pos / g * degPerTick = -(targetAngleDist (t - pos / g * degPerTick)) by ring]
    rw [abs_neg, abs_of_nonneg (targetAngleDist_nonneg _), targetAngleDist_eq]
  · rw [if_neg hbr]
    unfold getAngleDeg
    rw [mul_div_assoc, div_self hg, mul_one, add_mul,
        div_mul_cancel₀ _ degPerTick_ne_zero]
    rw [show pos / g * degPerTick + targetAngleDist (t - pos / g * degPerTick) -
          pos / g * degPerTick = targetAngleDist (t - pos / g * degPerTick) by ring]
    rw [abs_of_nonneg (targetAngleDist_nonneg _), targetAngleDist_eq]

theorem angDist_antipodal (a c : ℚ) :
    angDist (wrapCont (a + 180)) c = 180 - angDist a c := by
  unfold angDist
  have h1 : wrapCont (a + 180) - c = wrapCont (a + 180) + (-c) := by ring
  rw [h1, wrapCont_wrapCont_add]
  have h2 : a + 180 + (-c) = (a - c) + 180 := by ring
  rw [h2]
  have h3 : wrapCont (a - c + 180) = wrapCont (wrapCont (a - c) + 180) := by
    rw [wrapCont_wrapCont_add]
  rw [h3, abs_wrapCont_add_180 (neg_lt_wrapCont _) (wrapCont_le _)]

/-- After `optimizeState`, the target angle is within 90 degrees of the
current angle (in shortest angular distance). -/
theorem optimize_angDist_le_90 (d : ModuleStateDeg) (c : ℚ) :
    angDist (optimizeState d c).angleDeg c ≤ 90 := by
  unfold optimizeState
  by_cases h : 90 < |wrapCont (d.angleDeg - c)|
  · rw [if_pos h]
    show angDist (wrapCont (d.angleDeg + 180)) c ≤ 90
    rw [angDist_antipodal]
    unfold angDist
    linarith
  · rw [if_neg h]
    exact not_lt.mp h

/-- C5: for every target rotation and every current module angle (including
unwrapped angles outside [-180, 180)), `changeDirection` commands the
minimal arc: the magnitude of the commanded rotation never exceeds 180
degrees, equals the shortest angular distance between the two angles, and
is at most the magnitude of every 360-degree-shifted representative of the
raw delta. -/
theorem C5_changeDirection_minimal_arc (g pos t : ℚ) (hg : g ≠ 0) :
    |getAngleDeg g (changeDirection g pos t) - getAngleDeg g pos| ≤ 180 ∧
    |getAngleDeg g (changeDirection g pos t) - getAngleDeg g pos| =
      angDist t (getAngleDeg g pos) ∧
    ∀ k : ℤ, angDist t (getAngleDeg g pos) ≤ |t - getAngleDeg g pos + 360 * k| := by
  have h := abs_changeDirection_delta g pos t hg
  refine ⟨?_, h, ?_⟩
  · rw [h]
    unfold angDist
    have h1 := wrapCont_le (t - getAngleDeg g pos)
    have h2 := neg_lt_wrapCont (t - getAngleDeg g pos)
    rw [abs_le]
    exact ⟨by linarith, h1⟩
  · intro k
    unfold angDist
    calc |wrapCont (t - getAngleDeg g pos)|
        = |wrapCont (t - getAngleDeg g pos + 360 * k)| := by rw [wrapCont_add_int_mul]
      _ ≤ |t - getAngleDeg g pos + 360 * k| := abs_wrapCont_le_abs _

/-- Witness for C5 at gear ratio 1, current raw position 0, target 300
degrees. -/
theorem C5_witness :
    (1:ℚ) ≠ 0 ∧
      (|getAngleDeg 1 (changeDirection 1 0 300) - getAngleDeg 1 0| ≤ 180 ∧
       |getAngleDeg 1 (changeDirection 1 0 300) - getAngleDeg 1 0| =
         angDist 300 (getAngleDeg 1 0) ∧
       ∀ k : ℤ, angDist 300 (getAngleDeg 1 0) ≤ |300 - getAngleDeg 1 0 + 360 * k|) :=
  ⟨one_ne_zero, C5_changeDirection_minimal_arc 1 0 300 one_ne_zero⟩

/-- C1: with optimize=true, `setDesiredState` commands a steering rotation
of magnitude at most 90 degrees for every desired state and every current
module angle; and the optimizer replaces the target with its antipodal
angle (plus 180 degrees, wrapped) and negated speed whenever the antipodal
angle is strictly closer to the current angle. -/
theorem C1_setDesiredState_rotation_le_90 (g maxSpd arb pos : ℚ) (d : ModuleStateDeg)
    (hg : g ≠ 0) :
    |getAngleDeg g (setDesiredState g maxSpd arb pos d true).steerPos -
        getAngleDeg g pos| ≤ 90 ∧
    (∀ d2 : ModuleStateDeg, ∀ c : ℚ,
      angDist (wrapCont (d2.angleDeg + 180)) c < angDist d2.angleDeg c →
        optimizeState d2 c = ⟨-d2.speed, wrapCont (d2.angleDeg + 180)⟩) := by
  constructor
  · show |getAngleDeg g
        (changeDirection g pos (optimizeState d (getAngleDeg g pos)).angleDeg) -
        getAngleDeg g pos| ≤ 90
    rw [abs_changeDirection_delta g pos _ hg]
    exact optimize_angDist_le_90 d (getAngleDeg g pos)
  · intro d2 c hlt
    rw [angDist_antipodal] at hlt
    have hD : 90 < |wrapCont (d2.angleDeg - c)| := by
      unfold angDist at hlt
      linarith
    unfold optimizeState
    rw [if_pos hD]

/-- Witness for C1 at the spec scenario: module at 170 degrees (raw
position 8704/9 at gear ratio 1), desired target angle -170 degrees. -/
theorem C1_witness :
    (1:ℚ) ≠ 0 ∧
    |getAngleDeg 1 (setDesiredState 1 5 (1/50) (8704/9) ⟨2, -170⟩ true).steerPos -
        getAngleDeg 1 (8704/9)| ≤ 90 :=
  ⟨one_ne_zero,
   (C1_setDesiredState_rotation_le_90 1 5 (1/50) (8704/9) ⟨2, -170⟩ one_ne_zero).1⟩

/-- C8: when the target angle is exactly 180 degrees away from the current
angle (modulo 360), `changeDirection` always picks the same deterministic
direction: the `finalPos + changeInTalonUnits` branch (clockwise per the
source comment), moving the commanded angle by exactly +180 degrees. -/
theorem C8_exact_180_deterministic (g pos t : ℚ) (hg : g ≠ 0)
    (hk : ∃ k : ℤ, t - getAngleDeg g pos = 180 + 360 * k) :
    getAngleDeg g (changeDirection g pos t) - getAngleDeg g pos = 180 := by
  obtain ⟨k, hke⟩ := hk
  have hwc : wrapCont (t - getAngleDeg g pos) = 180 := by
    apply wrapCont_eq_of (by norm_num) (le_refl (180:ℚ)) k
    linarith
  have htad : targetAngleDist (t - getAngleDeg g pos) = 180 := by
    rw [targetAngleDist_eq, hwc]
    norm_num
  have hnd : normalizedDiff (t - getAngleDeg g pos) = 180 := by
    unfold normalizedDiff
    by_cases hcond : (t - getAngleDeg g pos) < 0 ∨ 360 ≤ (t - getAngleDeg g pos)
    · rw [if_pos hcond, hke]
      exact qmod_of_congr_180 k
    · rw [if_neg hcond]
      push_neg at hcond
      obtain ⟨hge, hlt⟩ := hcond
      have hk1 : k ≤ 0 := by
        by_contra hc
        push_neg at hc
        have h1 : (1:ℚ) ≤ (k:ℚ) := by exact_mod_cast hc
        linarith
      have hk2 : 0 ≤ k := by
        by_contra hc
        push_neg at hc
        have hle : k ≤ -1 := by omega
        have h1 : (k:ℚ) ≤ -1 := by exact_mod_cast hle
        linarith
      have hk0 : k = 0 := le_antisymm hk1 hk2
      rw [hke, hk0]
      norm_num
  unfold changeDirection
  rw [hnd, if_neg (by norm_num : ¬ (180:ℚ) < 180), htad]
  unfold getAngleDeg
  rw [mul_div_assoc, div_self hg, mul_one, add_mul,
      div_mul_cancel₀ _ degPerTick_ne_zero]
  ring

/-- Witness for C8 at gear ratio 1, raw position 0 (angle 0), target 180. -/
theorem C8_witness :
    ((1:ℚ) ≠ 0 ∧ (∃ k : ℤ, (180:ℚ) - getAngleDeg 1 0 = 180 + 360 * k)) ∧
    getAngleDeg 1 (changeDirection 1 0 180) - getAngleDeg 1 0 = 180 :=
  ⟨⟨one_ne_zero, ⟨0, by norm_num [getAngleDeg]⟩⟩,
   C8_exact_180_deterministic 1 0 180 one_ne_zero ⟨0, by norm_num [getAngleDeg]⟩⟩

/-- C10: when `setDesiredState` is called with desired speed exactly 0,
the drive motor is commanded with percent output 0 and the positive
feed-forward bias +arb, because the sign test `speed < 0` treats 0 as
non-negative (and optimization can only negate 0 to 0). -/
theorem C10_zero_speed_positive_arbFF (g maxSpd arb pos : ℚ) (d : ModuleStateDeg)
    (opt : Bool) (hs : d.speed = 0) :
    (setDesiredState g maxSpd arb pos d opt).percentOut = 0 ∧
    (setDesiredState g maxSpd arb pos d opt).arbFFOut = arb := by
  have hds : (if opt then optimizeState d (getAngleDeg g pos) else d).speed = 0 := by
    cases opt
    · simpa using hs
    · show (optimizeState d (getAngleDeg g pos)).speed = 0
      unfold optimizeState
      by_cases h : 90 < |wrapCont (d.angleDeg - getAngleDeg g pos)|
      · rw [if_pos h]
        show -d.speed = 0
        rw [hs]
        ring
      · rw [if_neg h]
        exact hs
  unfold setDesiredState
  refine ⟨?_, ?_⟩
  · show (if opt then optimizeState d (getAngleDeg g pos) else d).speed / maxSpd = 0
    rw [hds, zero_div]
  · show (if (if opt then optimizeState d (getAngleDeg g pos) else d).speed < 0
          then -arb else arb) = arb
    rw [hds, if_neg (by norm_num)]

/-- Witness for C10: stop command (speed 0, angle 45) with optimize on. -/
theorem C10_witness :
    (⟨0, 45⟩ : ModuleStateDeg).speed = 0 ∧
    (setDesiredState 1 5 (1/50) 0 ⟨0, 45⟩ true).percentOut = 0 ∧
    (setDesiredState 1 5 (1/50) 0 ⟨0, 45⟩ true).arbFFOut = 1/50 :=
  ⟨rfl, C10_zero_speed_positive_arbFF 1 5 (1/50) 0 ⟨0, 45⟩ true rfl⟩

/-! Kinematics.  The repository delegates to wpimath
`SwerveDrive4Kinematics`, which is not under src/; it is modelled here
from the spec (section 4.2) in Cartesian components.  wpimath computes
each module's velocity components from its inverse-kinematics matrix,
converts them to polar (speed = hypot, angle = atan2), and forward
kinematics converts a state back to components as speed*cos, speed*sin -
exactly recovering them - so the Cartesian representation embeds the
(speed, angle) pipeline without loss. -/

/-- A chassis velocity: vx, vy linear components and omega angular rate. -/
structure ChassisSpeedsQ where
  vx : ℚ
  vy : ℚ
  omega : ℚ
deriving DecidableEq

/-- A fixed 2D offset (module location or center of rotation). -/
structure Translation2dQ where
  x : ℚ
  y : ℚ
deriving DecidableEq

/-- A module's velocity vector in Cartesian components
(speed * cos angle, speed * sin angle). -/
structure ModuleVec where
  vx : ℚ
  vy : ℚ
deriving DecidableEq

/-- Module locations of `Swerve.kinematics` (swerve.py lines 144-145):
LF (1,1), LR (-1,1), RF (1,-1), RR (-1,-1). -/
def leftFrontLoc : Translation2dQ := ⟨1, 1⟩

def leftRearLoc : Translation2dQ := ⟨-1, 1⟩

def rightFrontLoc : Translation2dQ := ⟨1, -1⟩

def rightRearLoc : Translation2dQ := ⟨-1, -1⟩

/-- Modelled from the spec (section 4.2): one module's velocity vector is
the robot translational velocity plus the angular velocity crossed with
the module position relative to the center of rotation. -/
def moduleVecOf (v : ChassisSpeedsQ) (loc cor : Translation2dQ) : ModuleVec :=
  ⟨v.vx - v.omega * (loc.y - cor.y), v.vy + v.omega * (loc.x - cor.x)⟩

/-- Modelled from the spec: `toSwerveModuleStates` for the four fixed
module geometries, about center of rotation `cor`. -/
def toSwerveModuleVecs (v : ChassisSpeedsQ) (cor : Translation2dQ) :
    ModuleVec × ModuleVec × ModuleVec × ModuleVec :=
  (moduleVecOf v leftFrontLoc cor, moduleVecOf v leftRearLoc cor,
   moduleVecOf v rightFrontLoc cor, moduleVecOf v rightRearLoc cor)

/-- Modelled from the spec: `toChassisSpeeds`, the least-squares forward
kinematics for the four fixed module geometries.  For locations (±1, ±1)
the normal matrix of the inverse-kinematics matrix is diag(4, 4, 8),
giving this closed form. -/
def toChassisSpeedsQ (s : ModuleVec × ModuleVec × ModuleVec × ModuleVec) : ChassisSpeedsQ :=
  ⟨(s.1.vx + s.2.1.vx + s.2.2.1.vx + s.2.2.2.vx) / 4,
   (s.1.vy + s.2.1.vy + s.2.2.1.vy + s.2.2.2.vy) / 4,
   ((-leftFrontLoc.y * s.1.vx + leftFrontLoc.x * s.1.vy) +
    (-leftRearLoc.y * s.2.1.vx + leftRearLoc.x * s.2.1.vy) +
    (-rightFrontLoc.y * s.2.2.1.vx + rightFrontLoc.x * s.2.2.1.vy) +
    (-rightRearLoc.y * s.2.2.2.vx + rightRearLoc.x * s.2.2.2.vy)) / 8⟩

/-- Forward kinematics inverts inverse kinematics about the robot center
(helper shared by the round-trip and speed-supplier results). -/
theorem toChassis_toVecs_id (v : ChassisSpeedsQ) :
    toChassisSpeedsQ (toSwerveModuleVecs v ⟨0, 0⟩) = v := by
  cases v with
  | mk vx vy om =>
    simp only [toChassisSpeedsQ, toSwerveModuleVecs, moduleVecOf,
      leftFrontLoc, leftRearLoc, rightFrontLoc, rightRearLoc,
      ChassisSpeedsQ.mk.injEq]
    refine ⟨by ring, by ring, by ring⟩

/-- C2: composing inverse kinematics with forward kinematics is the
identity on chassis velocities for the four fixed module geometries
(exact equality, hence within any floating tolerance). -/
theorem C2_kinematics_round_trip (v : ChassisSpeedsQ) :
    toChassisSpeedsQ (toSwerveModuleVecs v ⟨0, 0⟩) = v :=
  toChassis_toVecs_id v

/-- Largest speed magnitude among the four module speeds
(`realMaxSpeed` in wpimath `desaturateWheelSpeeds`). -/
def realMaxSpeed (s : ℚ × ℚ × ℚ × ℚ) : ℚ :=
  max (max (max |s.1| |s.2.1|) |s.2.2.1|) |s.2.2.2|

/-- Modelled from the spec: wpimath `desaturateWheelSpeeds` (library, not
under src/), called by `Swerve.setModuleStates`, `Swerve.drive` and
`Drivetrain.set_desired_module_states`: when the largest speed magnitude
exceeds `m`, every speed is rescaled to speed / realMaxSpeed * m; module
angles are unchanged. -/
def desaturate (s : ℚ × ℚ × ℚ × ℚ) (m : ℚ) : ℚ × ℚ × ℚ × ℚ :=
  if m < realMaxSpeed s then
    (s.1 / realMaxSpeed s * m, s.2.1 / realMaxSpeed s * m,
     s.2.2.1 / realMaxSpeed s * m, s.2.2.2 / realMaxSpeed s * m)
  else s

theorem realMaxSpeed_nonneg (s : ℚ × ℚ × ℚ × ℚ) : 0 ≤ realMaxSpeed s :=
  le_trans (abs_nonneg s.2.2.2) (le_max_right _ _)

/-- C3: desaturation scales all four speeds by one common factor in
[0, 1], so it preserves the ratios between the speeds and never increases
any speed magnitude; and the spec scenario desaturate((10,15,8,12), 10)
yields exactly (20/3, 10, 16/3, 8). -/
theorem C3_desaturate_uniform_scale (s : ℚ × ℚ × ℚ × ℚ) (m : ℚ) (hm : 0 ≤ m) :
    (∃ c : ℚ, 0 ≤ c ∧ c ≤ 1 ∧
      desaturate s m = (c * s.1, c * s.2.1, c * s.2.2.1, c * s.2.2.2)) ∧
    desaturate (10, 15, 8, 12) 10 = (20/3, 10, 16/3, 8) := by
  constructor
  · by_cases h : m < realMaxSpeed s
    · have hpos : 0 < realMaxSpeed s := lt_of_le_of_lt hm h
      refine ⟨m / realMaxSpeed s, div_nonneg hm (le_of_lt hpos), ?_, ?_⟩
      · rw [div_le_one hpos]
        exact le_of_lt h
      · unfold desaturate
        rw [if_pos h]
        refine Prod.ext ?_ (Prod.ext ?_ (Prod.ext ?_ ?_)) <;> show _ = _ <;> ring
    · refine ⟨1, by norm_num, le_refl 1, ?_⟩
      unfold desaturate
      rw [if_neg h]
      simp
  · have hrm : realMaxSpeed (10, 15, 8, 12) = 15 := by
      show max (max (max |(10:ℚ)| |(15:ℚ)|) |(8:ℚ)|) |(12:ℚ)| = 15
      rw [abs_of_nonneg (by norm_num : (0:ℚ) ≤ 10),
          abs_of_nonneg (by norm_num : (0:ℚ) ≤ 15),
          abs_of_nonneg (by norm_num : (0:ℚ) ≤ 8),
          abs_of_nonneg (by norm_num : (0:ℚ) ≤ 12),
          max_eq_right (by norm_num : (10:ℚ) ≤ 15),
          max_eq_left (by norm_num : (8:ℚ) ≤ 15),
          max_eq_left (by norm_num : (12:ℚ) ≤ 15)]
    unfold desaturate
    rw [hrm, if_pos (by norm_num : (10:ℚ) < 15)]
    norm_num [Prod.ext_iff]

/-- Witness for C3 at the spec scenario speeds (10, 15, 8, 12) with
maxSpeed 10. -/
theorem C3_witness :
    (0:ℚ) ≤ 10 ∧
    (∃ c : ℚ, 0 ≤ c ∧ c ≤ 1 ∧
      desaturate (10, 15, 8, 12) 10 = (c * 10, c * 15, c * 8, c * 12)) :=
  ⟨by norm_num, (C3_desaturate_uniform_scale (10, 15, 8, 12) 10 (by norm_num)).1⟩

/-- C9: desaturation is idempotent for positive maxSpeed: desaturating an
already-desaturated 4-tuple of speeds with the same maxSpeed leaves it
unchanged, so the second desaturation inside `Swerve.setModuleStates` is a
no-op on states already desaturated by `Swerve.drive`. -/
theorem C9_desaturate_idempotent (s : ℚ × ℚ × ℚ × ℚ) (m : ℚ) (hm : 0 < m) :
    desaturate (desaturate s m) m = desaturate s m := by
  by_cases h : m < realMaxSpeed s
  · have hpos : 0 < realMaxSpeed s := lt_trans hm h
    have habs : ∀ a : ℚ, |a / realMaxSpeed s * m| = |a| * (m / realMaxSpeed s) := by
      intro a
      rw [abs_mul, abs_div, abs_of_pos hm, abs_of_pos hpos]
      ring
    have hrm : realMaxSpeed (desaturate s m) = m := by
      have hd : desaturate s m =
          (s.1 / realMaxSpeed s * m, s.2.1 / realMaxSpeed s * m,
           s.2.2.1 / realMaxSpeed s * m, s.2.2.2 / realMaxSpeed s * m) := by
        unfold desaturate
        rw [if_pos h]
      rw [hd]
      show max (max (max |s.1 / realMaxSpeed s * m| |s.2.1 / realMaxSpeed s * m|)
            |s.2.2.1 / realMaxSpeed s * m|) |s.2.2.2 / realMaxSpeed s * m| = m
      rw [habs, habs, habs, habs]
      have hc : 0 ≤ m / realMaxSpeed s := le_of_lt (div_pos hm hpos)
      rw [← max_mul_of_nonneg _ _ hc, ← max_mul_of_nonneg _ _ hc,
          ← max_mul_of_nonneg _ _ hc]
      show realMaxSpeed s * (m / realMaxSpeed s) = m
      rw [mul_comm, div_mul_cancel₀ m (ne_of_gt hpos)]
    rw [desaturate, if_neg (by rw [hrm]; exact lt_irrefl m)]
  · have hid : desaturate s m = s := by
      unfold desaturate
      rw [if_neg h]
    rw [hid]
    exact hid

/-- Witness for C9 at speeds (10, 15, 8, 12) with maxSpeed 5. -/
theorem C9_witness :
    (0:ℚ) < 5 ∧
    desaturate (desaturate (10, 15, 8, 12) 5) 5 = desaturate (10, 15, 8, 12) 5 :=
  ⟨by norm_num, C9_desaturate_idempotent (10, 15, 8, 12) 5 (by norm_num)⟩

/-! Vision fusion guard of `Drivetrain.periodic` (drivetrain.py). -/

/-- A 2D pose: x, y in meters and heading in degrees. -/
structure PoseQ where
  x : ℚ
  y : ℚ
  headingDeg : ℚ
deriving DecidableEq

/-- The MegaTag2 botpose estimate read from the limelight: estimated
pose, number of detected AprilTags, and capture timestamp. -/
structure MegaTag2 where
  pose : PoseQ
  tag_count : ℕ
  timestamp_seconds : ℚ
deriving DecidableEq

/-- Embeds the vision-fusion block of `Drivetrain.periodic`
(drivetrain.py lines 160-173).  The pose-estimator state is abstract
(type `α`); `fuse` models the library calls
`setVisionMeasurementStdDevs` followed by `addVisionMeasurement`
(wpimath `SwerveDrive4PoseEstimator`, not under src/).  The guard is the
source condition
`abs(self.navx.getRate()) < 720 and mega_tag2.tag_count > 0 and RobotBase.isReal()`. -/
def periodicVisionStep {α : Type} (fuse : α → PoseQ → ℚ → α) (st : α)
    (navxRate : ℚ) (mt : MegaTag2) (isReal : Bool) : α :=
  if |navxRate| < 720 ∧ 0 < mt.tag_count ∧ isReal = true then
    fuse st mt.pose mt.timestamp_seconds
  else st

/-- C4: a vision measurement is fused only when the angular rate is below
the 720 deg/s threshold and at least one tag is detected: with zero tags,
or with the rate at or above the threshold, the pose-estimator state
after the vision step is identical to the state before it; when the
guard conditions all hold the measurement is fused. -/
theorem C4_vision_guard {α : Type} (fuse : α → PoseQ → ℚ → α) (st : α)
    (navxRate : ℚ) (mt : MegaTag2) (isReal : Bool) :
    (mt.tag_count = 0 → periodicVisionStep fuse st navxRate mt isReal = st) ∧
    (720 ≤ |navxRate| → periodicVisionStep fuse st navxRate mt isReal = st) ∧
    (|navxRate| < 720 → 0 < mt.tag_count → isReal = true →
      periodicVisionStep fuse st navxRate mt isReal = fuse st mt.pose mt.timestamp_seconds) := by
  refine ⟨?_, ?_, ?_⟩
  · intro h0
    unfold periodicVisionStep
    rw [if_neg]
    rintro ⟨-, h1, -⟩
    omega
  · intro hr
    unfold periodicVisionStep
    rw [if_neg]
    rintro ⟨h1, -, -⟩
    linarith
  · intro h1 h2 h3
    unfold periodicVisionStep
    rw [if_pos ⟨h1, h2, h3⟩]

/-- Witness for C4: zero-tag measurement skipped, fast-rotation
measurement skipped, with a concrete fuse function on poses. -/
theorem C4_witness :
    ((⟨⟨3, 4, 5⟩, 0, 6⟩ : MegaTag2).tag_count = 0 ∧
      periodicVisionStep (fun _ p _ => p) (⟨1, 2, 0⟩ : PoseQ) 0 ⟨⟨3, 4, 5⟩, 0, 6⟩ true =
        ⟨1, 2, 0⟩) ∧
    ((720:ℚ) ≤ |(800:ℚ)| ∧
      periodicVisionStep (fun _ p _ => p) (⟨1, 2, 0⟩ : PoseQ) 800 ⟨⟨3, 4, 5⟩, 2, 6⟩ true =
        ⟨1, 2, 0⟩) :=
  ⟨⟨rfl, (C4_vision_guard (fun _ p _ => p) ⟨1, 2, 0⟩ 0 ⟨⟨3, 4, 5⟩, 0, 6⟩ true).1 rfl⟩,
   ⟨by norm_num,
    (C4_vision_guard (fun _ p _ => p) ⟨1, 2, 0⟩ 800 ⟨⟨3, 4, 5⟩, 2, 6⟩ true).2.1 (by norm_num)⟩⟩

/-! The drive pipelines of `Drivetrain` (drivetrain.py). -/

/-- Embeds wpimath `ChassisSpeeds.fromFieldRelativeSpeeds` (library, not
under src/), called by `drive_field_relative` (drivetrain.py line 293)
with the current heading: rotates the translation into the robot frame by
the negative robot angle, whose cosine and sine are `ch` and `sh`;
omega is unchanged. -/
def fromFieldRelativeSpeeds (v : ChassisSpeedsQ) (ch sh : ℚ) : ChassisSpeedsQ :=
  ⟨v.vx * ch + v.vy * sh, -v.vx * sh + v.vy * ch, v.omega⟩

/-- Modelled from the spec: wpimath `ChassisSpeeds.discretize` (library,
not under src/), called with dt = 0.02 by `drive_robot_centric` and
`drive_field_relative` (drivetrain.py lines 277 and 290).  The library
applies the pose-exponential (twist) correction: omega is unchanged and
the translation (vx, vy) is multiplied by a conformal 2x2 matrix
[[a, -b], [b, a]] whose coefficients depend only on omega and dt and
equal (1, 0) when omega = 0.  The coefficients involve trigonometric
functions of omega*dt, so they are taken as parameters `a`, `b` here. -/
def discretizeWith (a b : ℚ) (v : ChassisSpeedsQ) : ChassisSpeedsQ :=
  ⟨a * v.vx - b * v.vy, b * v.vx + a * v.vy, v.omega⟩

/-- Embeds `Drivetrain.drive_field_relative` (drivetrain.py lines
287-301) up to the module states handed to `set_desired_module_states`:
the source discretizes first, then rotates into the robot frame, then
applies inverse kinematics about `cor`.  `set_desired_module_states`
then desaturates these states and dispatches them to the four modules;
being a function of the states, it maps equal state tuples to equal
module commands. -/
def drive_field_relative_states (a b : ℚ) (v : ChassisSpeedsQ) (ch sh : ℚ)
    (cor : Translation2dQ) : ModuleVec × ModuleVec × ModuleVec × ModuleVec :=
  toSwerveModuleVecs (fromFieldRelativeSpeeds (discretizeWith a b v) ch sh) cor

/-- Embeds `Drivetrain.drive_robot_centric` (drivetrain.py lines 274-285)
up to the module states handed to `set_desired_module_states`. -/
def drive_robot_centric_states (a b : ℚ) (v : ChassisSpeedsQ)
    (cor : Translation2dQ) : ModuleVec × ModuleVec × ModuleVec × ModuleVec :=
  toSwerveModuleVecs (discretizeWith a b v) cor

/-- Counterexample to C6's scenario: a field-relative command
{vx=1, vy=0, omega=0} at heading 90 degrees (cos 0, sin 1) does NOT
produce the module states of the robot-centric command
{vx=0, vy=1, omega=0}; rotating the field +x direction into a robot frame
facing +90 degrees yields robot-frame vy = -1, not +1.  (omega = 0, so
the discretization coefficients are (1, 0).) -/
theorem C6_counterexample :
    drive_field_relative_states 1 0 ⟨1, 0, 0⟩ 0 1 ⟨0, 0⟩ ≠
      drive_robot_centric_states 1 0 ⟨0, 1, 0⟩ ⟨0, 0⟩ := by
  intro h
  have h1 := congrArg (fun q : ModuleVec × ModuleVec × ModuleVec × ModuleVec => q.1.vy) h
  simp only [drive_field_relative_states, drive_robot_centric_states, toSwerveModuleVecs,
    moduleVecOf, fromFieldRelativeSpeeds, discretizeWith, leftFrontLoc] at h1
  norm_num at h1

/-- C6 (amended): the code's order (discretize, then rotate into the
robot frame, then kinematics) produces exactly the same module states as
the rotate-first order stated in the spec, because the discretization
correction commutes with the heading rotation; and the field-relative
command {vx=1, vy=0, omega=0} at heading 90 degrees produces the module
states of the robot-centric command {vx=0, vy=-1, omega=0}. -/
theorem C6_pipeline_order_and_scenario :
    (∀ a b : ℚ, ∀ v : ChassisSpeedsQ, ∀ ch sh : ℚ, ∀ cor : Translation2dQ,
      drive_field_relative_states a b v ch sh cor =
        toSwerveModuleVecs (discretizeWith a b (fromFieldRelativeSpeeds v ch sh)) cor) ∧
    drive_field_relative_states 1 0 ⟨1, 0, 0⟩ 0 1 ⟨0, 0⟩ =
      drive_robot_centric_states 1 0 ⟨0, -1, 0⟩ ⟨0, 0⟩ := by
  constructor
  · intro a b v ch sh cor
    unfold drive_field_relative_states toSwerveModuleVecs moduleVecOf
    unfold discretizeWith fromFieldRelativeSpeeds
    simp only [Prod.mk.injEq, ModuleVec.mk.injEq]
    exact ⟨⟨by ring, by ring⟩, ⟨by ring, by ring⟩, ⟨by ring, by ring⟩, by ring, by ring⟩
  · unfold drive_field_relative_states drive_robot_centric_states toSwerveModuleVecs moduleVecOf
    unfold fromFieldRelativeSpeeds discretizeWith
    simp only [Prod.mk.injEq, ModuleVec.mk.injEq, leftFrontLoc, leftRearLoc,
      rightFrontLoc, rightRearLoc]
    norm_num

/-! The robot-relative speed suppliers handed to the path follower. -/

/-- A measured module state: signed speed plus the cosine and sine of the
module angle (wpimath `Rotation2d` stores the angle's cosine and sine). -/
structure ModuleStateQ where
  speed : ℚ
  cosA : ℚ
  sinA : ℚ
deriving DecidableEq

/-- Cartesian velocity components of a measured module state as consumed
by forward kinematics: (speed * cos, speed * sin). -/
def moduleStateToVec (s : ModuleStateQ) : ModuleVec :=
  ⟨s.speed * s.cosA, s.speed * s.sinA⟩

/-- Embeds `Drivetrain.get_robot_speed` (drivetrain.py lines 262-272):
forward kinematics applied to the four modules' currently measured
states.  (`SwerveModule.get_state` lives in subsystems/module.py, which
is not under src/; per spec section 4.1 it reads the sensors and returns
the measured state, taken as input here.) -/
def get_robot_speed
    (measured : ModuleStateQ × ModuleStateQ × ModuleStateQ × ModuleStateQ) :
    ChassisSpeedsQ :=
  toChassisSpeedsQ (moduleStateToVec measured.1, moduleStateToVec measured.2.1,
    moduleStateToVec measured.2.2.1, moduleStateToVec measured.2.2.2)

/-- The mutable state of the `Swerve` subsystem (swerve.py) relevant to
its speed supplier: the stored `chassisSpeed` field and the four
modules' currently measured states. -/
structure SwerveState where
  chassisSpeed : ChassisSpeedsQ
  measured : ModuleStateQ × ModuleStateQ × ModuleStateQ × ModuleStateQ
deriving DecidableEq

/-- The `self.chassisSpeed = chassisSpeed` store performed by
`Swerve.drive` (swerve.py line 219). -/
def swerveDriveStore (st : SwerveState) (cmd : ChassisSpeedsQ) : SwerveState :=
  { st with chassisSpeed := cmd }

/-- Embeds `Swerve.getChassisSpeeds` (swerve.py lines 232-233), the
robot-relative speed supplier the `Swerve` variant wires to the
path-follower AutoBuilder: it returns the stored `chassisSpeed` field. -/
def getChassisSpeeds (st : SwerveState) : ChassisSpeedsQ := st.chassisSpeed

/-- Counterexample to C7 for the swerve.py variant: after `drive` stores
the command (5, 0, 0) while all four modules measure zero speed, the
speed supplier `Swerve.getChassisSpeeds` returns the stored last
commanded velocity, not the forward kinematics of the measured states. -/
theorem C7_counterexample :
    getChassisSpeeds
        (swerveDriveStore ⟨⟨0, 0, 0⟩, (⟨0, 1, 0⟩, ⟨0, 1, 0⟩, ⟨0, 1, 0⟩, ⟨0, 1, 0⟩)⟩ ⟨5, 0, 0⟩) ≠
      get_robot_speed
        (swerveDriveStore ⟨⟨0, 0, 0⟩, (⟨0, 1, 0⟩, ⟨0, 1, 0⟩, ⟨0, 1, 0⟩, ⟨0, 1, 0⟩)⟩ ⟨5, 0, 0⟩).measured := by
  intro h
  have h1 := congrArg (fun q : ChassisSpeedsQ => q.vx) h
  simp only [getChassisSpeeds, swerveDriveStore, get_robot_speed, toChassisSpeedsQ,
    moduleStateToVec, leftFrontLoc, leftRearLoc, rightFrontLoc, rightRearLoc] at h1
  norm_num at h1

/-- C7 (amended): the `Drivetrain` variant's `get_robot_speed` is the
forward kinematics of the currently measured module states - in
particular it recovers a chassis velocity from measured states realizing
that velocity's module vectors - while the `Swerve` variant's
`getChassisSpeeds` returns the stored last commanded velocity unchanged,
ignoring the measured states. -/
theorem C7_speed_supplier (measured : ModuleStateQ × ModuleStateQ × ModuleStateQ × ModuleStateQ)
    (v : ChassisSpeedsQ)
    (hmeas : (moduleStateToVec measured.1, moduleStateToVec measured.2.1,
              moduleStateToVec measured.2.2.1, moduleStateToVec measured.2.2.2) =
             toSwerveModuleVecs v ⟨0, 0⟩) :
    get_robot_speed measured = v ∧
    ∀ st : SwerveState, ∀ cmd : ChassisSpeedsQ,
      getChassisSpeeds (swerveDriveStore st cmd) = cmd := by
  constructor
  · unfold get_robot_speed
    rw [hmeas]
    exact toChassis_toVecs_id v
  · intro st cmd
    rfl

/-- Witness for C7 at chassis velocity (1, 2, 3) and measured states
realizing its module vectors. -/
theorem C7_witness :
    ((moduleStateToVec ⟨1, -2, 5⟩, moduleStateToVec ⟨1, -2, -1⟩,
      moduleStateToVec ⟨1, 4, 5⟩, moduleStateToVec ⟨1, 4, -1⟩) =
        toSwerveModuleVecs ⟨1, 2, 3⟩ ⟨0, 0⟩) ∧
    get_robot_speed (⟨1, -2, 5⟩, ⟨1, -2, -1⟩, ⟨1, 4, 5⟩, ⟨1, 4, -1⟩) = ⟨1, 2, 3⟩ := by
  have hm : (moduleStateToVec ⟨1, -2, 5⟩, moduleStateToVec ⟨1, -2, -1⟩,
      moduleStateToVec ⟨1, 4, 5⟩, moduleStateToVec ⟨1, 4, -1⟩) =
        toSwerveModuleVecs ⟨1, 2, 3⟩ ⟨0, 0⟩ := by
    simp only [moduleStateToVec, toSwerveModuleVecs, moduleVecOf, leftFrontLoc,
      leftRearLoc, rightFrontLoc, rightRearLoc, Prod.mk.injEq, ModuleVec.mk.injEq]
    norm_num
  exact ⟨hm,
    (C7_speed_supplier (⟨1, -2, 5⟩, ⟨1, -2, -1⟩, ⟨1, 4, 5⟩, ⟨1, 4, -1⟩) ⟨1, 2, 3⟩ hm).1⟩

end Waffle
